import Mathlib

/-!
Verification development for the streaming patch parser in
src/parsepatch/patch.py.  The Python module is shallowly embedded below:

* lines are lists of characters (a Python str split on newlines);
* the two module-level regular expressions NUMS_PAT and EMPTY_PAT become
  executable matchers over character lists, each accompanied by a
  declarative description that is proved equivalent;
* the generator-based cursor (Patch._get_lines / Patch._lines together
  with the condition stack) becomes an explicit state machine on PState;
* Python exceptions become an error monad: StopIteration is caught by
  Patch.parse and carries the state (parse returns self.results at that
  moment), every other exception reaches the catch-all handler;
* Patch.get_touched becomes a function on finite sets of integers,
  mirroring the set(...) conversions performed by the Python code.

The embedding covers the single-fragment supply mode (one chunk holding
the whole patch), which is the mode exercised by Patch.parse_patch and
Patch.parse_file; the chunk reassembly helper lines_chunk from
Patch.parse_changeset is embedded separately.
-/

/-- Lines of a patch are modelled as lists of characters (a Python str
without a newline character). -/
abbrev Line := List Char

/-- Characters treated as blank padding by EMPTY_PAT, which uses the
character class of a space and a tab. -/
def isWs (c : Char) : Bool := c = ' ' || c = '\t'

/-- Decimal digit test, the character class 0-9 used by NUMS_PAT. -/
def isDigit (c : Char) : Bool := '0' ≤ c && c ≤ '9'

/-- Test whether the list pre is a prefix of l, modelling
Python str.startswith. -/
def startsWithB : Line → Line → Bool
  | [], _ => true
  | _ :: _, [] => false
  | p :: ps, c :: cs => p = c && startsWithB ps cs

/-- Split a character list at every newline character, modelling
Python str.split applied with a newline separator: the result is always
nonempty, and splitting the empty string gives one empty piece. -/
def splitNl : List Char → List Line
  | [] => [[]]
  | c :: t =>
    if c = '\n' then [] :: splitNl t
    else
      match splitNl t with
      | [] => [[c]]
      | h :: r => (c :: h) :: r

/-- Split a line at every occurrence of the character sep, modelling
Python str.split with an explicit separator (consecutive separators
produce empty pieces). -/
def splitOnChar (sep : Char) : Line → List Line
  | [] => [[]]
  | c :: t =>
    if c = sep then [] :: splitOnChar sep t
    else
      match splitOnChar sep t with
      | [] => [[c]]
      | h :: r => (c :: h) :: r

/-- Numeric value of a list of decimal digits, modelling Python int
applied to a digit string. -/
def digitsToNat : List Char → ℕ → ℕ
  | [], acc => acc
  | c :: t, acc => digitsToNat t (acc * 10 + (c.toNat - '0'.toNat))

/-- Matcher for the module constant
EMPTY_PAT, the regular expression that starts with a plus or minus sign,
then blank padding, then an optional line comment running to the end of
the line, then an optional block comment whose interior holds no star
before its closing run of stars, then blank padding, anchored at both
ends.  The empty-line case of the alternation: the whole remainder is
blank. -/
def emptyRestB (r : Line) : Bool :=
  match r with
  | [] => true
  | c0 :: r1 =>
    match r1 with
    | [] => false
    | c1 :: u =>
      if c0 = '/' && c1 = '/' then true
      else if c0 = '/' && c1 = '*' then
        let v := u.dropWhile (fun c => !(c = '*'))
        match v.dropWhile (fun c => c = '*') with
        | [] => false
        | c2 :: tr => c2 = '/' && (!v.isEmpty && tr.all isWs)
      else false

/-- Matcher for EMPTY_PAT as a whole: a leading plus or minus marker,
then the rest of the regular expression applied after discarding leading
blanks (the greedy blank-padding group).  This is the executable form of
the regular expression on line 15 of patch.py; the equivalence with the
declarative reading is proved in emptyMatchB_iff_SpecEmpty below. -/
def emptyMatchB : Line → Bool
  | [] => false
  | c :: t => (c = '+' || c = '-') && emptyRestB (t.dropWhile isWs)

/-- Embedding of Patch.get_signed_count: negate the count when the line
matches EMPTY_PAT. -/
def get_signed_count (line : Line) (count : ℤ) : ℤ :=
  if emptyMatchB line then -count else count

/-- Touched collection computed by Patch.get_touched after both anchor
collections have been converted to sets (sets of integers are modelled as
duplicate-free lists, obtained with dedup): the absolute values of the
positive anchors of either side that the opposite set holds at either
sign, the union of the two comprehensions being a concatenation followed
by dedup. -/
def touchedList (addedS deletedS : List ℤ) : List ℤ :=
  ((addedS.filter (fun x => decide (0 < x ∧ (x ∈ deletedS ∨ -x ∈ deletedS)))).map (fun x => |x|) ++
   (deletedS.filter (fun x => decide (0 < x ∧ (x ∈ addedS ∨ -x ∈ addedS)))).map (fun x => |x|)).dedup

/-- Kept anchors of one side in Patch.get_touched: the positive ones
outside the touched collection. -/
def keptList (xs touched : List ℤ) : List ℤ :=
  xs.filter (fun x => decide (0 < x ∧ x ∉ touched))

/-- Embedding of Patch.get_touched: convert the raw anchor lists to sets
(the Python calls to set), build the touched set, filter each side, and
return the three collections as sorted lists (Python sorted on a set). -/
def get_touched (added deleted : List ℤ) : List ℤ × List ℤ × List ℤ :=
  let addedS := added.dedup
  let deletedS := deleted.dedup
  let touched := touchedList addedS deletedS
  (List.insertionSort (· ≤ ·) (keptList addedS touched),
   List.insertionSort (· ≤ ·) (keptList deletedS touched),
   List.insertionSort (· ≤ ·) touched)

/-- Embedding of the helper lines_chunk defined inside
Patch.parse_changeset, threading the carried partial fragment: each chunk
is split on newlines, the carry is glued onto the first piece, the last
piece becomes the new carry, and the remaining pieces are yielded.  The
function returns the list of yielded line blocks; the final carry is
dropped, exactly as in the Python generator, which never flushes it.
The helper glueFirst is the assignment gluing the carry onto the first
piece of the freshly split chunk. -/
def glueFirst (l : Line) : List Line → List Line
  | [] => []
  | h :: r => (l ++ h) :: r

/-- Recursion of lines_chunk over the incoming chunks. -/
def lines_chunk_aux : Option Line → List (List Char) → List (List Line)
  | _, [] => []
  | carry, chunk :: rest =>
    let parts :=
      match carry with
      | none => splitNl chunk
      | some l => glueFirst l (splitNl chunk)
    parts.dropLast :: lines_chunk_aux (some (parts.getLastD [])) rest

/-- Embedding of lines_chunk itself: the carry starts out absent. -/
def lines_chunk (chunks : List (List Char)) : List (List Line) :=
  lines_chunk_aux none chunks

/-- Value stored in the result dictionary for one file: Patch.skip_new_file
stores a dictionary with the key new set to True, Patch.get_changes stores
the three reconciled line lists together with new set to False. -/
inductive FileEntry
  | isNew
  | modified (addedL deletedL touchedL : List ℤ)
deriving DecidableEq, Repr

/-- Suspension point of the _lines generator: start is the generator not
yet begun, a is suspension at the yield of a line, b is suspension at the
yield of the end-of-scope signal (after a condition was popped), done is
an exhausted generator. -/
inductive Phase
  | start
  | a
  | b
  | done
deriving DecidableEq, Repr

/-- State of one Patch object driving a single buffered fragment: the
fragment's lines, the cursor index, the generator's suspension point, the
condition stack (top of the Python list self.conditions is the head
here), the raw anchor lists (None before Patch.get_files initialises
them), the result dictionary (an association list preserving insertion
order) and the active file name. -/
structure PState where
  lines : List Line
  index : ℕ
  phase : Phase
  conds : List (Line → Bool)
  added : Option (List ℤ)
  deleted : Option (List ℤ)
  results : List (String × FileEntry)
  filename : String

/-- Python control flow that escapes a method: StopIteration carries the
state at the raise (Patch.parse catches it and returns self.results of
that moment); exc is any other exception (AttributeError, IndexError,
TypeError), which reaches the catch-all handler of Patch.parse; timeout
is an artefact of the fuel given to the interpreter, not a Python
behaviour. -/
inductive Err
  | stopIt (s : PState)
  | exc
  | timeout

/-- Monad of the embedded methods. -/
abbrev M (α : Type) := Except Err α

/-- Event produced by resuming the _lines generator: a yielded line, the
yielded None signalling that the top condition failed and was popped, or
generator exhaustion. -/
inductive Step
  | got (l : Line)
  | none_
  | end_

/-- Embedding of Patch._condition: push a checker on the stack. -/
def pushCond (c : Line → Bool) (s : PState) : PState :=
  {s with conds := c :: s.conds}

/-- Embedding of the top of the while loop inside Patch._lines: with the
cursor inside the fragment, the current line is yielded when the stack is
empty or its top accepts the line; otherwise the top condition is popped
and None is yielded.  With the cursor past the fragment, the outer
generator is exhausted (single-fragment mode) and _lines returns. -/
def resumeLoop (s : PState) : Step × PState :=
  if h : s.index < s.lines.length then
    let l := s.lines.get ⟨s.index, h⟩
    match s.conds with
    | [] => (Step.got l, {s with phase := Phase.a})
    | c :: rest =>
      if c l then (Step.got l, {s with phase := Phase.a})
      else (Step.none_, {s with phase := Phase.b, conds := rest})
  else (Step.end_, {s with phase := Phase.done})

/-- Embedding of resuming the _lines generator with the value n (1 for a
plain next).  From suspension a the cursor advances by n; when that runs
past the fragment, _get_lines records the overflow in self.index and the
generator ends (StopIteration is caught inside _lines).  From suspensions
b and start the sent value is discarded, because the yield of None is not
an assignment, and control returns to the loop top without moving the
cursor. -/
def genResume (s : PState) (n : ℕ) : Step × PState :=
  match s.phase with
  | Phase.done => (Step.end_, s)
  | Phase.start => resumeLoop s
  | Phase.b => resumeLoop s
  | Phase.a =>
    let i := s.index + n
    if i < s.lines.length then resumeLoop {s with index := i}
    else (Step.end_, {s with index := i - s.lines.length, phase := Phase.done})

/-- Pull of the next generator item, as done by a Python for loop over
self.get_lines. -/
def nextL (s : PState) : Step × PState :=
  genResume s 1

/-- Embedding of Patch.move: send n into the generator and discard the
yielded value.  Sending into an exhausted generator raises StopIteration
at the caller, carrying the current state. -/
def moveC (n : ℕ) (s : PState) : M PState :=
  match s.phase with
  | Phase.done => Except.error (Err.stopIt s)
  | _ => Except.ok (genResume s n).2

/-- Embedding of Patch.line: read self.lines at self.index, raising
IndexError when the index is out of range. -/
def lineAt (s : PState) : M Line :=
  match s.lines.get? s.index with
  | some l => Except.ok l
  | none => Except.error Err.exc

/-- Loop over the generator that consumes yielded lines and stops at the
end-of-scope signal or at exhaustion, reporting which of the two ended it
(true for the signal).  This is the shared shape of the loops inside
Patch.skip_useless, Patch.skip_binary and Patch.next_diff.  The fuel
argument only bounds the interpreter; the Python loops run until one of
the two exits. -/
def scanLoop : ℕ → PState → M (Bool × PState)
  | 0, _ => Except.error Err.timeout
  | fuel + 1, s =>
    match nextL s with
    | (Step.got _, s') => scanLoop fuel s'
    | (Step.none_, s') => Except.ok (true, s')
    | (Step.end_, s') => Except.ok (false, s')

/-- Embedding of the loop inside Patch.count_minus: every yielded line is
recorded in self.deleted with the current count, and the count then
increases by one.  Appending to an absent list is the Python
AttributeError on None. -/
def count_minus_loop : ℕ → ℤ → PState → M PState
  | 0, _, _ => Except.error Err.timeout
  | fuel + 1, count, s =>
    match nextL s with
    | (Step.got l, s') =>
      match s'.deleted with
      | none => Except.error Err.exc
      | some dl =>
        count_minus_loop fuel (count + 1)
          {s' with deleted := some (dl ++ [get_signed_count l count])}
    | (Step.none_, s') => Except.ok s'
    | (Step.end_, s') => Except.ok s'

/-- Condition pushed by Patch.next_diff: lines that are not yet a new
diff header. -/
def notDiffCond (l : Line) : Bool := !(startsWithB ("diff --git a/".toList) l)

/-- Condition pushed by Patch.skip_useless: metadata lines of a file
section. -/
def uselessCond (l : Line) : Bool :=
  startsWithB ("---".toList) l || startsWithB ("+++".toList) l ||
  startsWithB ("index ".toList) l || startsWithB ("old mode".toList) l ||
  startsWithB ("new mode".toList) l

/-- Condition pushed by Patch.skip_binary: the truthiness of the line,
that is non-emptiness. -/
def nonBlankCond (l : Line) : Bool := !l.isEmpty

/-- Condition pushed by Patch.parse_hunk: the first character of the line
belongs to the module constant FIRST. -/
def checkFIRST (l : Line) : Bool :=
  match l with
  | [] => false
  | c :: _ => c = ' ' || c = '+' || c = '-'

/-- Condition pushed by Patch.count_minus. -/
def minusCond (l : Line) : Bool := startsWithB ['-'] l

/-- Condition pushed by Patch.parse_hunks, and the hunk-header test used
in Patch.get_changes and the two skip functions. -/
def atCond (l : Line) : Bool := startsWithB ['@'] l

/-- Embedding of Patch.skip_useless. -/
def skip_useless (fuel : ℕ) (s : PState) : M PState := do
  let (_, s') ← scanLoop fuel (pushCond uselessCond s)
  Except.ok s'

/-- Embedding of Patch.skip_binary. -/
def skip_binary (fuel : ℕ) (s : PState) : M PState := do
  let (_, s') ← scanLoop fuel (pushCond nonBlankCond s)
  Except.ok s'

/-- Embedding of Patch.next_diff: true when a diff header stopped the
scan, false when the input ran out first. -/
def next_diff (fuel : ℕ) (s : PState) : M (Bool × PState) :=
  scanLoop fuel (pushCond notDiffCond s)

/-- One group pair of NUMS_PAT: a nonempty digit run, an optional comma,
and an optional second digit run defaulting to one.  Returns the two
numbers and the unconsumed remainder of the line. -/
def parseNumPair (r : Line) : Option ((ℕ × ℕ) × Line) :=
  let ds := r.takeWhile isDigit
  if ds.isEmpty then none
  else
    let r1 := r.dropWhile isDigit
    let r2 :=
      match r1 with
      | ',' :: t => t
      | _ => r1
    let ds2 := r2.takeWhile isDigit
    let g2 := if ds2.isEmpty then 1 else digitsToNat ds2 0
    some ((digitsToNat ds 0, g2), r2.dropWhile isDigit)

/-- Matcher for the module constant NUMS_PAT: the hunk header shape
anchored at the start of the line, with anything allowed after the
closing pair of at signs.  Returns the old and new (start, count)
pairs. -/
def numsMatch (l : Line) : Option ((ℕ × ℕ) × (ℕ × ℕ)) :=
  match l with
  | '@' :: '@' :: ' ' :: '-' :: r => do
    let (p1, r1) ← parseNumPair r
    match r1 with
    | ' ' :: '+' :: r2 => do
      let (p2, r3) ← parseNumPair r2
      match r3 with
      | ' ' :: '@' :: '@' :: _ => some (p1, p2)
      | _ => none
    | _ => none
  | _ => none

/-- Embedding of Patch.parse_numbers: a failed match leaves m as None and
the call m.groups() raises AttributeError. -/
def parse_numbers (l : Line) : M ((ℕ × ℕ) × (ℕ × ℕ)) :=
  match numsMatch l with
  | some v => Except.ok v
  | none => Except.error Err.exc

/-- Line against which Patch.is_binary compares. -/
def gitBinaryLine : Line := "GIT binary patch".toList

/-- Insertion into the result dictionary, modelling assignment to a key
of a Python dict: replace in place or append at the end. -/
def insertRes (k : String) (v : FileEntry) :
    List (String × FileEntry) → List (String × FileEntry)
  | [] => [(k, v)]
  | (k', v') :: r => if k' = k then (k, v) :: r else (k', v') :: insertRes k v r

/-- Embedding of Patch.skip_deleted_file: skip metadata, then either a
binary payload or, on a hunk header, move by the old-side count; nothing
is ever recorded. -/
def skip_deleted_file (fuel : ℕ) (s : PState) : M PState := do
  let s1 ← skip_useless fuel s
  let l ← lineAt s1
  if l = gitBinaryLine then
    skip_binary fuel s1
  else if atCond l then do
    let (mi, _) ← parse_numbers l
    moveC mi.2 s1
  else
    Except.ok s1

/-- Embedding of Patch.skip_new_file: same skipping on the new-side
count, then the file is recorded as new when a filename is active. -/
def skip_new_file (fuel : ℕ) (s : PState) : M PState := do
  let s1 ← skip_useless fuel s
  let l ← lineAt s1
  let s2 ←
    if l = gitBinaryLine then
      skip_binary fuel s1
    else if atCond l then do
      let (_, pl) ← parse_numbers l
      moveC pl.2 s1
    else
      Except.ok s1
  if s2.filename ≠ "" then
    Except.ok {s2 with results := insertRes s2.filename FileEntry.isNew s2.results}
  else
    Except.ok s2

/-- Embedding of Patch.count_minus: push the minus condition and run the
recording loop starting at the given count. -/
def count_minus (fuel : ℕ) (count : ℤ) (s : PState) : M PState :=
  count_minus_loop fuel count (pushCond minusCond s)

/-- Embedding of the body loop of Patch.parse_hunk: a context line bumps
the count; an added line is recorded in self.added and bumps the count; a
deleted line is recorded in self.deleted with the current count and the
following run of deleted lines is consumed by count_minus starting at
count plus one, after which the loop resumes with the count it had at the
first deleted line.  A yielded line whose first character matches none of
the three cases is skipped by the if chain.  The fuel argument only bounds
the interpreter. -/
def hunkLoop : ℕ → ℤ → PState → M PState
  | 0, _, _ => Except.error Err.timeout
  | fuel + 1, count, s =>
    match nextL s with
    | (Step.none_, s') => Except.ok s'
    | (Step.end_, s') => Except.ok s'
    | (Step.got l, s') =>
      match l with
      | [] => Except.error Err.exc
      | c :: _ =>
        if c = ' ' then hunkLoop fuel (count + 1) s'
        else if c = '+' then
          match s'.added with
          | none => Except.error Err.exc
          | some al =>
            hunkLoop fuel (count + 1) {s' with added := some (al ++ [get_signed_count l count])}
        else if c = '-' then
          match s'.deleted with
          | none => Except.error Err.exc
          | some dl => do
            let s2 ← count_minus fuel (count + 1)
              {s' with deleted := some (dl ++ [get_signed_count l count])}
            hunkLoop fuel count s2
        else hunkLoop fuel count s'

/-- Embedding of Patch.parse_hunk: read the hunk header numbers,
initialise the count with the new-side start, push the FIRST condition
and run the body loop. -/
def parse_hunk (fuel : ℕ) (l : Line) (s : PState) : M PState := do
  let (_, pl) ← parse_numbers l
  hunkLoop fuel (pl.1 : ℤ) (pushCond checkFIRST s)

/-- Embedding of the loop inside Patch.parse_hunks. -/
def hunksLoop : ℕ → PState → M PState
  | 0, _ => Except.error Err.timeout
  | fuel + 1, s =>
    match nextL s with
    | (Step.none_, s') => Except.ok s'
    | (Step.end_, s') => Except.ok s'
    | (Step.got l, s') => do
      let s2 ← parse_hunk fuel l s'
      hunksLoop fuel s2

/-- Embedding of Patch.parse_hunks: push the hunk-header condition and
parse hunks while they last. -/
def parse_hunks (fuel : ℕ) (s : PState) : M PState :=
  hunksLoop fuel (pushCond atCond s)

/-- Truthiness of the raw anchor attributes: None and the empty list are
falsy. -/
def truthy : Option (List ℤ) → Bool
  | none => false
  | some l => !l.isEmpty

/-- Embedding of the tail of Patch.get_changes: when either raw anchor
list is truthy, reconcile them and store the modified entry under the
active filename.  Reconciling an absent list would be the Python
TypeError from set applied to None. -/
def finalize (s : PState) : M PState :=
  if truthy s.added || truthy s.deleted then
    match s.added, s.deleted with
    | some a, some d =>
      let (a', rest) := get_touched a d
      Except.ok {s with results := insertRes s.filename (FileEntry.modified a' rest.1 rest.2) s.results}
    | _, _ => Except.error Err.exc
  else Except.ok s

/-- Tokens tested by Patch.get_changes on the first body line. -/
def newFileTok : Line := "new file".toList

/-- Token of the deleted-file branch. -/
def delFileTok : Line := "deleted file".toList

/-- Embedding of Patch.get_changes: its for loop performs exactly one
dispatch on the first yielded line (every branch breaks), then the tail
records the reconciled anchors.  A yielded None would be dispatched with
an attribute access on None, the Python AttributeError. -/
def get_changes (fuel : ℕ) (s : PState) : M PState :=
  match nextL s with
  | (Step.end_, s') => finalize s'
  | (Step.none_, _) => Except.error Err.exc
  | (Step.got l, s') =>
    if startsWithB newFileTok l then do
      let s2 ← skip_new_file fuel s'
      finalize s2
    else if startsWithB delFileTok l then do
      let s2 ← skip_deleted_file fuel s'
      finalize s2
    else do
      let s2 ← skip_useless fuel s'
      let l2 ← lineAt s2
      if atCond l2 then do
        let s3 ← parse_hunks fuel s2
        finalize s3
      else finalize s2

/-- Embedding of Patch.get_files: split the header line on spaces, read
the two path tokens (IndexError when missing), strip the a/ and b/
prefixes, reset the raw anchor lists, and set or clear the active
filename according to the externally supplied interest predicate. -/
def get_files (interesting : String → Bool) (s : PState) : M (Bool × PState) := do
  let l ← lineAt s
  let toks := splitOnChar ' ' l
  match toks.get? 2, toks.get? 3 with
  | some oldT, some newT =>
    let _old_p := if startsWithB ("a/".toList) oldT then oldT.drop 2 else oldT
    let new_p := if startsWithB ("b/".toList) newT then newT.drop 2 else newT
    let s := {s with added := some [], deleted := some []}
    let name := String.mk new_p
    if interesting name then
      Except.ok (true, {s with filename := name})
    else
      Except.ok (false, {s with filename := ""})
  | _, _ => Except.error Err.exc

/-- Embedding of the while loop of Patch.parse: seek a diff header; on
success read the file pair, advance, and process the body when the file
is interesting. -/
def parseLoop (interesting : String → Bool) : ℕ → PState → M PState
  | 0, _ => Except.error Err.timeout
  | fuel + 1, s => do
    let (b, s1) ← next_diff fuel s
    if b then do
      let (g, s2) ← get_files interesting s1
      let s3 ← moveC 1 s2
      if g then do
        let s4 ← get_changes fuel s3
        parseLoop interesting fuel s4
      else
        parseLoop interesting fuel s3
    else
      Except.ok s1

/-- Attributes set on a Patch instance by Patch.__init__ together with
the one assigned by parse_changeset.  The catch-all handler of
Patch.parse reads self.chgset, which is not among them (the attribute is
called changeset), so the read raises AttributeError inside the
handler. -/
def patchInstanceAttrs : List String :=
  ["index", "lines", "N", "get_lines", "conditions", "added", "deleted",
   "results", "filename", "changeset"]

/-- Outcome of Patch.parse as observed by its caller: a returned result
dictionary together with the number of error reports delivered to the
logger, or an uncaught exception escaping parse (with the number of
reports delivered before the raise), or interpreter fuel exhaustion. -/
inductive Outcome
  | okR (results : List (String × FileEntry)) (logs : ℕ)
  | raised (logs : ℕ)
  | fuelOut
deriving DecidableEq, Repr

/-- Embedding of the catch-all handler of Patch.parse: it formats its
message with self.chgset before calling the logger.  Were the attribute
present, the handler would deliver one report and parse would return an
empty dictionary; the lookup fails, so the AttributeError escapes with
nothing logged. -/
def parseExcHandler : Outcome :=
  if patchInstanceAttrs.contains "chgset" then
    Outcome.okR [] 1
  else
    Outcome.raised 0

/-- Fresh state of Patch.__init__ over one buffered fragment. -/
def initState (ls : List Line) : PState :=
  { lines := ls, index := 0, phase := Phase.start, conds := [],
    added := none, deleted := none, results := [], filename := "" }

/-- Embedding of Patch.parse on a single fragment: StopIteration is
caught and the results gathered so far are returned; any other exception
goes to the catch-all handler. -/
def parse (interesting : String → Bool) (fuel : ℕ) (ls : List Line) : Outcome :=
  match parseLoop interesting fuel (initState ls) with
  | Except.ok s => Outcome.okR s.results 0
  | Except.error (Err.stopIt s) => Outcome.okR s.results 0
  | Except.error Err.exc => parseExcHandler
  | Except.error Err.timeout => Outcome.fuelOut

/-- Public attributes of the six compatibility module: its string and
class compatibility aliases.  There is no attribute called strings; the
name the code presumably intended is string_types. -/
def sixModuleAttrs : List String :=
  ["PY2", "PY3", "string_types", "integer_types", "class_types",
   "text_type", "binary_type"]

/-- Record of the fact that the second argument Patch.parse_patch passes
to isinstance is the patch string itself and not a type, so even with a
correct first argument the call would raise TypeError. -/
def isinstanceSecondArgIsType : Bool := false

/-- Embedding of Patch.parse_patch on a string input: the guard
isinstance(six.strings, patch) first evaluates six.strings, raising
AttributeError when the module lacks the attribute; even otherwise the
reversed isinstance arguments raise TypeError.  Only if both steps
succeeded would the string be split into lines and parsed as one
fragment. -/
def parse_patch (interesting : String → Bool) (fuel : ℕ) (patch : String) : Outcome :=
  if sixModuleAttrs.contains "strings" then
    if isinstanceSecondArgIsType then
      parse interesting fuel (splitNl patch.toList)
    else
      Outcome.raised 0
  else
    Outcome.raised 0

theorem mem_touchedList {aS dS : List ℤ} {x : ℤ} :
    x ∈ touchedList aS dS ↔
      (x ∈ aS ∧ 0 < x ∧ (x ∈ dS ∨ -x ∈ dS)) ∨
      (x ∈ dS ∧ 0 < x ∧ (x ∈ aS ∨ -x ∈ aS)) := by
  rw [touchedList, List.mem_dedup, List.mem_append]
  constructor
  · rintro (h | h) <;> rw [List.mem_map] at h <;> obtain ⟨y, hy, hxy⟩ := h <;>
      rw [List.mem_filter, decide_eq_true_eq] at hy <;>
      obtain ⟨hmem, hpos, hor⟩ := hy <;> rw [← hxy, abs_of_pos hpos]
    · exact Or.inl ⟨hmem, hpos, hor⟩
    · exact Or.inr ⟨hmem, hpos, hor⟩
  · rintro (⟨hmem, hpos, hor⟩ | ⟨hmem, hpos, hor⟩)
    · exact Or.inl (List.mem_map.2 ⟨x,
        List.mem_filter.2 ⟨hmem, decide_eq_true ⟨hpos, hor⟩⟩, abs_of_pos hpos⟩)
    · exact Or.inr (List.mem_map.2 ⟨x,
        List.mem_filter.2 ⟨hmem, decide_eq_true ⟨hpos, hor⟩⟩, abs_of_pos hpos⟩)

theorem mem_keptList {xs touched : List ℤ} {x : ℤ} :
    x ∈ keptList xs touched ↔ x ∈ xs ∧ (0 < x ∧ x ∉ touched) := by
  rw [keptList, List.mem_filter, decide_eq_true_eq]

theorem nodup_keptList {xs touched : List ℤ} (h : xs.Nodup) :
    (keptList xs touched).Nodup := h.filter _

theorem insertionSort_mem {l : List ℤ} {x : ℤ} :
    x ∈ List.insertionSort (· ≤ ·) l ↔ x ∈ l :=
  (List.perm_insertionSort _ l).mem_iff

theorem sorted_lt_of_nodup {l : List ℤ} (h1 : List.Sorted (· ≤ ·) l)
    (h2 : l.Nodup) : List.Sorted (· < ·) l := by
  induction l with
  | nil => exact List.sorted_nil
  | cons x t ih =>
    rw [List.sorted_cons] at h1 ⊢
    rw [List.nodup_cons] at h2
    refine ⟨fun b hb => lt_of_le_of_ne (h1.1 b hb) ?_, ih h1.2 h2.2⟩
    intro hxb
    exact h2.1 (hxb ▸ hb)

theorem sorted_lt_insertionSort {l : List ℤ} (h : l.Nodup) :
    List.Sorted (· < ·) (List.insertionSort (· ≤ ·) l) :=
  sorted_lt_of_nodup (List.sorted_insertionSort _ l)
    ((List.perm_insertionSort _ l).nodup_iff.2 h)

/-- Claim C2: the Reconciler satisfies the worked example exactly:
get_touched applied to added = [1,2,3,4,-5,-6,-7,8,10] and
deleted = [4,5,6,-7,9,-10] returns added' = [1,2,3,8], deleted' = [9]
and touched = [4,5,6,10]. -/
theorem claim_C2 :
    get_touched [1, 2, 3, 4, -5, -6, -7, 8, 10] [4, 5, 6, -7, 9, -10] =
      ([1, 2, 3, 8], [9], [4, 5, 6, 10]) := by
  decide

/-- Claim C3: for every pair of input anchor lists (arbitrary signed
integers, duplicates allowed) the three lists added', deleted', touched
returned by the Reconciler are pairwise disjoint as sets and each is
strictly increasing. -/
theorem claim_C3 (a d : List ℤ) :
    (∀ x, x ∈ (get_touched a d).1 → x ∉ (get_touched a d).2.1) ∧
    (∀ x, x ∈ (get_touched a d).1 → x ∉ (get_touched a d).2.2) ∧
    (∀ x, x ∈ (get_touched a d).2.1 → x ∉ (get_touched a d).2.2) ∧
    List.Sorted (· < ·) (get_touched a d).1 ∧
    List.Sorted (· < ·) (get_touched a d).2.1 ∧
    List.Sorted (· < ·) (get_touched a d).2.2 := by
  simp only [get_touched]
  refine ⟨?_, ?_, ?_, ?_, ?_, ?_⟩
  · intro x hx hy
    rw [insertionSort_mem, mem_keptList] at hx hy
    exact hx.2.2 (mem_touchedList.2 (Or.inl ⟨hx.1, hx.2.1, Or.inl hy.1⟩))
  · intro x hx hy
    rw [insertionSort_mem, mem_keptList] at hx
    rw [insertionSort_mem] at hy
    exact hx.2.2 hy
  · intro x hx hy
    rw [insertionSort_mem, mem_keptList] at hx
    rw [insertionSort_mem] at hy
    exact hx.2.2 hy
  · exact sorted_lt_insertionSort (nodup_keptList (List.nodup_dedup a))
  · exact sorted_lt_insertionSort (nodup_keptList (List.nodup_dedup d))
  · exact sorted_lt_insertionSort (List.nodup_dedup _)

theorem sortedSet_eq_of_mem_iff {u v : List ℤ} (hu : u.Nodup) (hv : v.Nodup)
    (h : ∀ x, x ∈ u ↔ x ∈ v) :
    List.insertionSort (· ≤ ·) u = List.insertionSort (· ≤ ·) v :=
  List.eq_of_perm_of_sorted
    (((List.perm_insertionSort _ u).trans
      ((List.perm_ext_iff_of_nodup hu hv).2 h)).trans
      (List.perm_insertionSort _ v).symm)
    (List.sorted_insertionSort _ u) (List.sorted_insertionSort _ v)

/-- Claim C10: the Reconciler depends only on the underlying sets of its
two inputs: for anchor lists with the same elements (any order, any
duplication) get_touched returns identical results. -/
theorem claim_C10 (a d a' d' : List ℤ)
    (ha : ∀ x : ℤ, x ∈ a ↔ x ∈ a') (hd : ∀ x : ℤ, x ∈ d ↔ x ∈ d') :
    get_touched a d = get_touched a' d' := by
  have haS : ∀ x : ℤ, x ∈ a.dedup ↔ x ∈ a'.dedup := fun x => by
    rw [List.mem_dedup, List.mem_dedup]
    exact ha x
  have hdS : ∀ x : ℤ, x ∈ d.dedup ↔ x ∈ d'.dedup := fun x => by
    rw [List.mem_dedup, List.mem_dedup]
    exact hd x
  have ht : ∀ x : ℤ, x ∈ touchedList a.dedup d.dedup ↔
      x ∈ touchedList a'.dedup d'.dedup := fun x => by
    rw [mem_touchedList, mem_touchedList, haS x, hdS x, haS (-x), hdS (-x)]
  simp only [get_touched]
  refine Prod.ext ?_ (Prod.ext ?_ ?_)
  · exact sortedSet_eq_of_mem_iff (nodup_keptList (List.nodup_dedup a))
      (nodup_keptList (List.nodup_dedup a'))
      (fun x => by rw [mem_keptList, mem_keptList, haS x, ht x])
  · exact sortedSet_eq_of_mem_iff (nodup_keptList (List.nodup_dedup d))
      (nodup_keptList (List.nodup_dedup d'))
      (fun x => by rw [mem_keptList, mem_keptList, hdS x, ht x])
  · exact sortedSet_eq_of_mem_iff (List.nodup_dedup _) (List.nodup_dedup _) ht

/-- Witness for claim C10 at concrete lists that hold the same elements
with different order and duplication. -/
theorem claim_C10_witness :
    get_touched [1, 1, -2] [3, 3] = get_touched [-2, 1] [3] :=
  claim_C10 [1, 1, -2] [3, 3] [-2, 1] [3]
    (fun x => by simp; tauto) (fun x => by simp)

theorem splitNl_ne_nil (l : List Char) : splitNl l ≠ [] := by
  cases l with
  | nil => simp [splitNl]
  | cons c t =>
    rw [splitNl]
    split
    · simp
    · split <;> simp

theorem mem_splitNl_no_nl {l : List Char} {p : Line} (h : p ∈ splitNl l) :
    '\n' ∉ p := by
  induction l generalizing p with
  | nil =>
    rw [splitNl, List.mem_singleton] at h
    subst h
    simp
  | cons c t ih =>
    rw [splitNl] at h
    split at h
    · rcases List.mem_cons.1 h with rfl | hm
      · simp
      · exact ih hm
    · rename_i hc
      rcases hs : splitNl t with _ | ⟨h0, r0⟩
      · exact absurd hs (splitNl_ne_nil t)
      · rw [hs, List.mem_cons] at h
        rcases h with rfl | hm
        · intro hmem
          rcases List.mem_cons.1 hmem with rfl | hmem2
          · exact hc rfl
          · exact ih (hs ▸ List.mem_cons_self h0 r0) hmem2
        · exact ih (hs ▸ List.mem_cons_of_mem h0 hm)

theorem splitNl_no_nl {l : List Char} (h : '\n' ∉ l) : splitNl l = [l] := by
  induction l with
  | nil => rfl
  | cons c t ih =>
    rw [splitNl]
    rw [List.mem_cons, not_or] at h
    rw [if_neg (fun hc => h.1 hc.symm), ih h.2]

theorem glueFirst_ne_nil {l : Line} {parts : List Line} (h : parts ≠ []) :
    glueFirst l parts ≠ [] := by
  cases parts with
  | nil => exact absurd rfl h
  | cons a r => simp [glueFirst]

theorem glueFirst_nil_left {parts : List Line} (h : parts ≠ []) :
    glueFirst [] parts = parts := by
  cases parts with
  | nil => exact absurd rfl h
  | cons a r => simp [glueFirst]

theorem getLastD_irrel {α : Type} {l : List α} (h : l ≠ []) (d₁ d₂ : α) :
    l.getLastD d₁ = l.getLastD d₂ := by
  cases l with
  | nil => exact absurd rfl h
  | cons a r => rw [List.getLastD_cons, List.getLastD_cons]

theorem getLastD_mem {α : Type} {l : List α} (h : l ≠ []) (d : α) :
    l.getLastD d ∈ l := by
  induction l generalizing d with
  | nil => exact absurd rfl h
  | cons a r ih =>
    rw [List.getLastD_cons]
    cases r with
    | nil => simp
    | cons b r' => exact List.mem_cons_of_mem a (ih (by simp) a)

/-- Behaviour of splitNl on a non-newline head: the character is glued
onto the first piece of the tail's split. -/
theorem splitNl_cons_ne {c : Char} (hc : ¬c = '\n') (t : List Char) :
    splitNl (c :: t) = glueFirst [c] (splitNl t) := by
  rw [splitNl, if_neg hc]
  rcases hs : splitNl t with _ | ⟨h0, r0⟩
  · exact absurd hs (splitNl_ne_nil t)
  · simp [glueFirst]

/-- Splitting a concatenation on newlines: all pieces of the left part
except its last, then the pieces of the right part with the left's last
piece glued onto the first. -/
theorem splitNl_append (x y : List Char) :
    splitNl (x ++ y) =
      (splitNl x).dropLast ++ glueFirst ((splitNl x).getLastD []) (splitNl y) := by
  induction x with
  | nil =>
    rcases hy : splitNl y with _ | ⟨hy0, ry⟩
    · exact absurd hy (splitNl_ne_nil y)
    · simp [splitNl, glueFirst, hy]
  | cons c t ih =>
    by_cases hc : c = '\n'
    · subst hc
      rw [List.cons_append, splitNl, if_pos rfl, ih, splitNl, if_pos rfl,
        List.dropLast_cons_of_ne_nil (splitNl_ne_nil t), List.getLastD_cons,
        List.cons_append]
    · rw [List.cons_append, splitNl_cons_ne hc, splitNl_cons_ne hc, ih]
      rcases hs : splitNl t with _ | ⟨h0, r0⟩
      · exact absurd hs (splitNl_ne_nil t)
      · rcases hy : splitNl y with _ | ⟨hy0, ry⟩
        · exact absurd hy (splitNl_ne_nil y)
        · cases r0 with
          | nil => simp [glueFirst]
          | cons r1 rr =>
            cases rr with
            | nil => simp [glueFirst, List.getLastD_cons]
            | cons r2 rs =>
              simp [glueFirst, List.getLastD_cons,
                List.dropLast_cons_of_ne_nil]

/-- Gluing a newline-free carry onto the first piece of a split is the
split of the concatenation. -/
theorem glueFirst_splitNl {carry : Line} (h : '\n' ∉ carry) (c : List Char) :
    glueFirst carry (splitNl c) = splitNl (carry ++ c) := by
  rw [splitNl_append, splitNl_no_nl h]
  simp [glueFirst]

theorem lines_chunk_aux_join :
    ∀ (chunks : List (List Char)) (carry : Line), '\n' ∉ carry →
      (lines_chunk_aux (some carry) chunks).flatten =
        (splitNl (carry ++ chunks.flatten)).dropLast
  | [], carry, h => by
    simp [lines_chunk_aux, splitNl_no_nl h]
  | c :: cs, carry, h => by
    have hK : '\n' ∉ (splitNl (carry ++ c)).getLastD [] :=
      mem_splitNl_no_nl (getLastD_mem (splitNl_ne_nil (carry ++ c)) [])
    simp only [lines_chunk_aux, List.flatten_cons, glueFirst_splitNl h c]
    rw [lines_chunk_aux_join cs _ hK,
      show carry ++ (c ++ cs.flatten) = (carry ++ c) ++ cs.flatten from
        (List.append_assoc carry c cs.flatten).symm,
      splitNl_append (carry ++ c) cs.flatten,
      List.dropLast_append_of_ne_nil _
        (@glueFirst_ne_nil ((splitNl (carry ++ c)).getLastD []) (splitNl cs.flatten)
          (splitNl_ne_nil cs.flatten)),
      glueFirst_splitNl hK]

theorem lines_chunk_aux_none (chunks : List (List Char)) :
    lines_chunk_aux none chunks = lines_chunk_aux (some []) chunks := by
  cases chunks with
  | nil => rfl
  | cons c cs =>
    simp only [lines_chunk_aux]
    rw [glueFirst_nil_left (splitNl_ne_nil c)]

/-- Claim C9, amended: the line blocks yielded by the reassembly stage
concatenate to the logical lines of the concatenation of all fragments
except the final piece after the last newline, which is carried but never
flushed; when the input ends with a newline that dropped piece is the
empty string.  Lines are never split across blocks and appear in
order. -/
theorem claim_C9 (chunks : List (List Char)) :
    (lines_chunk chunks).flatten = (splitNl chunks.flatten).dropLast := by
  rw [lines_chunk, lines_chunk_aux_none, lines_chunk_aux_join chunks [] (by simp),
    List.nil_append]

/-- Counterexample to claim C9 as stated: for the single fragment holding
one newline between two characters, the logical lines are two, but the
reassembly stage delivers only the first; the final line, which is the
last carried partial fragment, is never yielded to the scanner. -/
theorem claim_C9_cex :
    (lines_chunk [("a\nb").toList]).flatten = [['a']] ∧
    splitNl (List.flatten [("a\nb").toList]) = [['a'], ['b']] ∧
    ([['a']] : List Line) ≠ [['a'], ['b']] := by
  exact ⟨by decide, by decide, by decide⟩

theorem dropWhile_cons_of_neg {p : Char → Bool} {x : Char} {xs : Line}
    (h : p x = false) : (x :: xs).dropWhile p = x :: xs := by
  rw [List.dropWhile_cons, if_neg (by rw [h]; exact Bool.false_ne_true)]

theorem dropWhile_append_all {p : Char → Bool} {xs : Line} (ys : Line)
    (h : ∀ x ∈ xs, p x = true) :
    (xs ++ ys).dropWhile p = ys.dropWhile p := by
  induction xs with
  | nil => rfl
  | cons x t ih =>
    rw [List.cons_append, List.dropWhile_cons, if_pos (h x (by simp))]
    exact ih (fun y hy => h y (List.mem_cons_of_mem x hy))

theorem dropWhile_of_all {p : Char → Bool} {xs : Line}
    (h : ∀ x ∈ xs, p x = true) : xs.dropWhile p = [] := by
  have := dropWhile_append_all (p := p) [] h
  rwa [List.append_nil] at this

theorem dropWhile_eq_cons_neg {p : Char → Bool} :
    ∀ {u : Line} {x : Char} {xs : Line}, u.dropWhile p = x :: xs → p x = false
  | [], _, _, h => by cases h
  | c :: t, x, xs, h => by
    rw [List.dropWhile_cons] at h
    split at h
    · exact dropWhile_eq_cons_neg h
    · cases h
      rename_i hc
      exact Bool.eq_false_iff.2 hc

/-- Blank padding as a proposition: every character is a space or a
tab. -/
def AllWs (l : Line) : Prop := ∀ c ∈ l, c = ' ' ∨ c = '\t'

theorem allWs_iff {l : Line} : AllWs l ↔ ∀ c ∈ l, isWs c = true := by
  constructor <;> intro h c hc <;> have := h c hc <;>
    simpa [isWs] using this

/-- Block comment shape accepted by EMPTY_PAT: an opener, an interior
without stars, a nonempty run of stars, and the closing slash. -/
def BlockForm (mid : Line) : Prop :=
  ∃ m st, mid = '/' :: '*' :: (m ++ st ++ ['/']) ∧
    (∀ ch ∈ m, ch ≠ '*') ∧ st ≠ [] ∧ (∀ ch ∈ st, ch = '*')

/-- Declarative reading of the language of EMPTY_PAT: a plus or minus
marker, blank padding, an optional middle that is either a line comment
running to the end of the line or a block comment of the restricted
shape, and trailing blank padding. -/
def SpecEmpty (l : Line) : Prop :=
  ∃ c t ws1 mid ws2, l = c :: t ∧ t = ws1 ++ mid ++ ws2 ∧
    (c = '+' ∨ c = '-') ∧ AllWs ws1 ∧ AllWs ws2 ∧
    (mid = [] ∨ (∃ u, mid = '/' :: '/' :: u) ∨ BlockForm mid)

theorem emptyRestB_iff (t : Line) :
    emptyRestB (t.dropWhile isWs) = true ↔
      ∃ ws1 mid ws2, t = ws1 ++ mid ++ ws2 ∧ AllWs ws1 ∧ AllWs ws2 ∧
        (mid = [] ∨ (∃ u, mid = '/' :: '/' :: u) ∨ BlockForm mid) := by
  constructor
  · intro h
    have ht : t.takeWhile isWs ++ t.dropWhile isWs = t :=
      List.takeWhile_append_dropWhile isWs t
    have hws1 : AllWs (t.takeWhile isWs) :=
      allWs_iff.2 (fun c hc => List.mem_takeWhile_imp hc)
    rcases hr : t.dropWhile isWs with _ | ⟨c0, r1⟩
    · refine ⟨t.takeWhile isWs, [], [], ?_, hws1, ?_, Or.inl rfl⟩
      · conv_lhs => rw [← ht, hr]
        simp
      · intro c hc
        simp at hc
    · rcases r1 with _ | ⟨c1, u⟩
      · rw [hr] at h
        simp [emptyRestB] at h
      · rw [hr] at h
        simp only [emptyRestB] at h
        split at h
        · rename_i hcond
          rw [Bool.and_eq_true, decide_eq_true_eq, decide_eq_true_eq] at hcond
          obtain ⟨rfl, rfl⟩ := hcond
          refine ⟨t.takeWhile isWs, '/' :: '/' :: u, [], ?_, hws1, ?_,
            Or.inr (Or.inl ⟨u, rfl⟩)⟩
          · conv_lhs => rw [← ht, hr]
            simp
          · intro c hc
            simp at hc
        · split at h
          · rename_i hcond2
            rw [Bool.and_eq_true, decide_eq_true_eq, decide_eq_true_eq] at hcond2
            obtain ⟨rfl, rfl⟩ := hcond2
            rcases hw : (u.dropWhile (fun c => !(c = '*'))).dropWhile
                (fun c => c = '*') with _ | ⟨c2, tr⟩ <;>
              rw [hw] at h
            · simp at h
            · rw [Bool.and_eq_true, Bool.and_eq_true, decide_eq_true_eq] at h
              obtain ⟨rfl, hvne, htr⟩ := h
              have hu : u.takeWhile (fun c => !(c = '*')) ++
                  u.dropWhile (fun c => !(c = '*')) = u :=
                List.takeWhile_append_dropWhile _ u
              have hv : (u.dropWhile (fun c => !(c = '*'))).takeWhile
                    (fun c => c = '*') ++ ('/' :: tr) =
                  u.dropWhile (fun c => !(c = '*')) := by
                rw [← hw]
                exact List.takeWhile_append_dropWhile _ _
              have hstne : (u.dropWhile (fun c => !(c = '*'))).takeWhile
                  (fun c => c = '*') ≠ [] := by
                rcases hv3 : u.dropWhile (fun c => !(c = '*')) with _ | ⟨x, xs⟩
                · rw [hv3] at hvne
                  simp at hvne
                · have hx : (fun c => !(c = '*')) x = false :=
                    dropWhile_eq_cons_neg hv3
                  rw [List.takeWhile_cons, if_pos (by simpa using hx)]
                  simp
              refine ⟨t.takeWhile isWs,
                '/' :: '*' :: (u.takeWhile (fun c => !(c = '*')) ++
                  (u.dropWhile (fun c => !(c = '*'))).takeWhile
                    (fun c => c = '*') ++ ['/']), tr, ?_, hws1, ?_, Or.inr (Or.inr
                ⟨u.takeWhile (fun c => !(c = '*')),
                 (u.dropWhile (fun c => !(c = '*'))).takeWhile (fun c => c = '*'),
                 rfl, ?_, hstne, ?_⟩)⟩
              · conv_lhs => rw [← ht, hr]
                simp only [List.append_assoc, List.cons_append,
                  List.singleton_append, List.nil_append]
                rw [hv, hu]
              · exact allWs_iff.2 (fun c hc => List.all_eq_true.1 htr c hc)
              · intro ch hch
                have := List.mem_takeWhile_imp hch
                simpa using this
              · intro ch hch
                have := List.mem_takeWhile_imp hch
                simpa using this
          · cases h
  · rintro ⟨ws1, mid, ws2, rfl, h1, h2, hcase⟩
    rw [List.append_assoc, dropWhile_append_all _ (allWs_iff.1 h1)]
    rcases hcase with rfl | ⟨u, rfl⟩ | ⟨m, st, rfl, hm, hstne, hstar⟩
    · rw [List.nil_append, dropWhile_of_all (allWs_iff.1 h2)]
      rfl
    · rw [List.cons_append, List.cons_append,
        dropWhile_cons_of_neg (by decide)]
      simp [emptyRestB]
    · rcases hst : st with _ | ⟨s0, st'⟩
      · exact absurd hst hstne
      · subst hst
        have hs0 : s0 = '*' := hstar s0 (by simp)
        subst hs0
        rw [List.cons_append, List.cons_append,
          dropWhile_cons_of_neg (by decide)]
        simp only [emptyRestB]
        rw [if_neg (by decide), if_pos (by decide)]
        have hv : ((m ++ ('*' :: st') ++ ['/']) ++ ws2).dropWhile
            (fun c => !(c = '*')) = ('*' :: st') ++ ('/' :: ws2) := by
          rw [show (m ++ ('*' :: st') ++ ['/']) ++ ws2 =
              m ++ (('*' :: st') ++ ('/' :: ws2)) by simp,
            dropWhile_append_all _ (fun x hx => by simpa using hm x hx),
            List.cons_append, dropWhile_cons_of_neg (by decide)]
        rw [hv]
        have hw : (('*' :: st') ++ ('/' :: ws2)).dropWhile (fun c => c = '*') =
            '/' :: ws2 := by
          rw [dropWhile_append_all _ (fun x hx => by simpa using hstar x hx),
            dropWhile_cons_of_neg (by decide)]
        rw [hw]
        simp [List.all_eq_true]
        exact allWs_iff.1 h2

/-- Equivalence of the executable EMPTY_PAT matcher with the declarative
reading of the regular expression's language. -/
theorem emptyMatchB_iff_SpecEmpty {l : Line} :
    emptyMatchB l = true ↔ SpecEmpty l := by
  cases l with
  | nil =>
    simp only [emptyMatchB]
    constructor
    · intro h
      cases h
    · rintro ⟨c, t, ws1, mid, ws2, h, -⟩
      cases h
  | cons c t =>
    rw [show emptyMatchB (c :: t) =
        ((c = '+' || c = '-') && emptyRestB (t.dropWhile isWs)) from rfl,
      Bool.and_eq_true, Bool.or_eq_true, decide_eq_true_eq, decide_eq_true_eq]
    constructor
    · rintro ⟨hm, hrest⟩
      obtain ⟨ws1, mid, ws2, heq, h1, h2, hc⟩ := (emptyRestB_iff t).1 hrest
      exact ⟨c, t, ws1, mid, ws2, rfl, heq, hm, h1, h2, hc⟩
    · rintro ⟨c', t', ws1, mid, ws2, heq, ht', hm, h1, h2, hc⟩
      injection heq with hc' ht''
      subst hc'
      subst ht''
      exact ⟨hm, (emptyRestB_iff t).2 ⟨ws1, mid, ws2, ht', h1, h2, hc⟩⟩

/-- Scanner for an occurrence of a star followed by a slash, used to
express that a block comment does not close early. -/
def hasStarSlash : Line → Bool
  | [] => false
  | [_] => false
  | c :: d :: t => (c = '*' && d = '/') || hasStarSlash (d :: t)

theorem hasStarSlash_iff : ∀ {l : Line},
    hasStarSlash l = true ↔ ∃ u v, l = u ++ '*' :: '/' :: v
  | [] => by
    simp only [hasStarSlash]
    constructor
    · intro h
      cases h
    · rintro ⟨u, v, h⟩
      rcases u with _ | ⟨x, us⟩ <;> cases h
  | [c] => by
    simp only [hasStarSlash]
    constructor
    · intro h
      cases h
    · rintro ⟨u, v, h⟩
      rcases u with _ | ⟨x, us⟩
      · cases h
      · rcases us with _ | ⟨y, us'⟩ <;> cases h
  | c :: d :: t => by
    rw [show hasStarSlash (c :: d :: t) =
        ((c = '*' && d = '/') || hasStarSlash (d :: t)) from rfl,
      Bool.or_eq_true, Bool.and_eq_true, decide_eq_true_eq, decide_eq_true_eq]
    constructor
    · rintro (⟨rfl, rfl⟩ | h)
      · exact ⟨[], t, rfl⟩
      · obtain ⟨u, v, huv⟩ := hasStarSlash_iff.1 h
        exact ⟨c :: u, v, by rw [List.cons_append, ← huv]⟩
    · rintro ⟨u, v, huv⟩
      rcases u with _ | ⟨x, us⟩
      · injection huv with h1 h2
        injection h2 with h2a h2b
        exact Or.inl ⟨h1, h2a⟩
      · injection huv with h1 h2
        exact Or.inr (hasStarSlash_iff.2 ⟨us, v, h2⟩)

/-- Remainder of a line after stripping the leading plus or minus marker
and the blank padding on both ends, the preprocessing named by the
specification's emptiness rule; lines without a marker have no
remainder. -/
def stripMarkerWs (l : Line) : Option Line :=
  match l with
  | [] => none
  | c :: t =>
    if c = '+' || c = '-' then
      some (((t.dropWhile isWs).reverse.dropWhile isWs).reverse)
    else none

/-- Shape of a remainder that is entirely one block comment opened and
closed on the same line: an opener, an interior in which the comment does
not close early, and the closing pair. -/
def WholeBlockComment (r : Line) : Prop :=
  ∃ m, r = '/' :: '*' :: (m ++ ['*', '/']) ∧ ¬∃ u v, m = u ++ '*' :: '/' :: v

/-- Predicate written from the claim's wording of the emptiness rule:
after stripping the marker and surrounding whitespace the remainder is
empty, or entirely a single-line comment, or entirely a block comment
opened and closed on that same line. -/
def SpecNonSub (l : Line) : Prop :=
  ∃ r, stripMarkerWs l = some r ∧
    (r = [] ∨ (∃ u, r = '/' :: '/' :: u) ∨ WholeBlockComment r)

/-- Counterexample to claim C5 as stated: the line holding a minus marker
and then a block comment with an inner star is non-substantive by the
claim's rule (its remainder is entirely a block comment opened and closed
on that same line), yet EMPTY_PAT rejects the line, so the appended
anchor is the positive count. -/
theorem claim_C5_cex :
    get_signed_count ("-/* a * b */".toList) 5 = 5 ∧
    SpecNonSub ("-/* a * b */".toList) := by
  refine ⟨by decide, "/* a * b */".toList, by decide,
    Or.inr (Or.inr ⟨" a * b ".toList, by decide, ?_⟩)⟩
  intro h
  exact absurd (hasStarSlash_iff.2 h) (by decide)

/-- Claim C5, amended: for every line and positive count, the anchor the
scanner appends for the line is negative exactly when the line consists
of a plus or minus marker, blank padding, an optional remainder that is
either a single-line comment running to the end of the line or a block
comment opened and closed on that same line whose interior holds no star
before the closing run of stars, and trailing blank padding; compared
with the claim as stated, the block-comment case excludes comments whose
interior holds a star. -/
theorem claim_C5 (l : Line) (count : ℤ) (h : 0 < count) :
    get_signed_count l count < 0 ↔ SpecEmpty l := by
  rw [get_signed_count, ← emptyMatchB_iff_SpecEmpty]
  by_cases hb : emptyMatchB l <;> simp [hb] <;> omega

/-- Witness for claim C5 at a concrete blank added line and count. -/
theorem claim_C5_witness :
    get_signed_count ("+ ".toList) 2 < 0 ↔ SpecEmpty ("+ ".toList) :=
  claim_C5 ("+ ".toList) 2 (by decide)

theorem resumeLoop_cond_got {L : List Line} {p : ℕ} {φ : Phase}
    {c : Line → Bool} {cs : List (Line → Bool)} {ad dl : Option (List ℤ)}
    {res : List (String × FileEntry)} {fn : String}
    (h : p < L.length) (hc : c (L.get ⟨p, h⟩) = true) :
    resumeLoop ⟨L, p, φ, c :: cs, ad, dl, res, fn⟩ =
      (Step.got (L.get ⟨p, h⟩), ⟨L, p, Phase.a, c :: cs, ad, dl, res, fn⟩) := by
  rw [resumeLoop]
  rw [dif_pos h]
  dsimp only
  rw [if_pos hc]

theorem resumeLoop_cond_pop {L : List Line} {p : ℕ} {φ : Phase}
    {c : Line → Bool} {cs : List (Line → Bool)} {ad dl : Option (List ℤ)}
    {res : List (String × FileEntry)} {fn : String}
    (h : p < L.length) (hc : c (L.get ⟨p, h⟩) = false) :
    resumeLoop ⟨L, p, φ, c :: cs, ad, dl, res, fn⟩ =
      (Step.none_, ⟨L, p, Phase.b, cs, ad, dl, res, fn⟩) := by
  rw [resumeLoop]
  rw [dif_pos h]
  dsimp only
  rw [if_neg (by rw [hc]; exact Bool.false_ne_true)]

theorem genResume_a {L : List Line} {p : ℕ}
    {cds : List (Line → Bool)} {ad dl : Option (List ℤ)}
    {res : List (String × FileEntry)} {fn : String} (n : ℕ) :
    genResume ⟨L, p, Phase.a, cds, ad, dl, res, fn⟩ n =
      if p + n < L.length then
        resumeLoop ⟨L, p + n, Phase.a, cds, ad, dl, res, fn⟩
      else
        (Step.end_, ⟨L, p + n - L.length, Phase.done, cds, ad, dl, res, fn⟩) := by
  rw [genResume]

/-- Anchors recorded for a run of deleted lines read at consecutive
positions starting at the given count, each sign-encoded by the
emptiness rule. -/
def runAnchors (count : ℤ) : List Line → List ℤ
  | [] => []
  | l :: ls => get_signed_count l count :: runAnchors (count + 1) ls

/-- Behaviour of the count_minus loop across a maximal run of deleted
lines: with the cursor suspended on the line before the run and the minus
condition on top of the stack, the loop consumes exactly the run,
appending one anchor per line at consecutive counts, pops its condition
at the first non-deleted line and leaves the cursor suspended there, with
every other field untouched. -/
theorem count_minus_run :
    ∀ (ms : List Line) (fuel : ℕ) (pre : List Line) (r : Line)
      (rest : List Line) (p : ℕ) (cnt : ℤ) (cs : List (Line → Bool))
      (ad : Option (List ℤ)) (d : List ℤ) (res : List (String × FileEntry))
      (fn : String),
      ms.length + 1 ≤ fuel →
      pre.length = p + 1 →
      (∀ l ∈ ms, minusCond l = true) →
      minusCond r = false →
      count_minus_loop fuel cnt
        ⟨pre ++ ms ++ r :: rest, p, Phase.a, minusCond :: cs, ad, some d,
          res, fn⟩ =
      Except.ok
        ⟨pre ++ ms ++ r :: rest, p + ms.length + 1, Phase.b, cs, ad,
          some (d ++ runAnchors cnt ms), res, fn⟩
  | [], fuel, pre, r, rest, p, cnt, cs, ad, d, res, fn, hfuel, hpre, _,
      hr => by
    obtain ⟨f', rfl⟩ : ∃ f', fuel = f' + 1 := ⟨fuel - 1, by omega⟩
    have hlen : p + 1 < (pre ++ [] ++ r :: rest).length := by
      simp [hpre]
    have hget : (pre ++ [] ++ r :: rest).get ⟨p + 1, hlen⟩ = r := by
      rw [List.get_eq_getElem, List.getElem_eq_iff]
      show (pre ++ [] ++ r :: rest)[p + 1]? = some r
      rw [List.append_nil, List.getElem?_append_right (by simp [hpre])]
      simp [hpre]
    rw [count_minus_loop]
    rw [nextL, genResume_a, if_pos hlen,
      resumeLoop_cond_pop hlen (by rw [hget]; exact hr)]
    simp [runAnchors]
  | m :: ms', fuel, pre, r, rest, p, cnt, cs, ad, d, res, fn, hfuel, hpre,
      hms, hr => by
    obtain ⟨f', rfl⟩ : ∃ f', fuel = f' + 1 := ⟨fuel - 1, by omega⟩
    have hlen : p + 1 < (pre ++ (m :: ms') ++ r :: rest).length := by
      simp [hpre]
    have hget : (pre ++ (m :: ms') ++ r :: rest).get ⟨p + 1, hlen⟩ = m := by
      rw [List.get_eq_getElem, List.getElem_eq_iff]
      show (pre ++ m :: ms' ++ r :: rest)[p + 1]? = some m
      rw [List.append_assoc, List.getElem?_append_right (by simp [hpre])]
      simp [hpre]
    rw [count_minus_loop]
    rw [nextL, genResume_a, if_pos hlen,
      resumeLoop_cond_got hlen (by rw [hget]; exact hms m (by simp))]
    dsimp only
    rw [hget]
    have hre : pre ++ (m :: ms') ++ r :: rest =
        (pre ++ [m]) ++ ms' ++ r :: rest := by
      simp
    have := count_minus_run ms' f' (pre ++ [m]) r rest (p + 1) (cnt + 1) cs
      ad (d ++ [get_signed_count m cnt]) res fn (by simp at hfuel; omega)
      (by simp [hpre]) (fun l hl => hms l (List.mem_cons_of_mem m hl)) hr
    rw [hre, this]
    simp only [runAnchors, List.length_cons]
    rw [List.append_cons d (get_signed_count m cnt) (runAnchors (cnt + 1) ms')]
    congr 2
    omega

theorem minusCond_head {l : Line} (h : minusCond l = true) :
    ∃ t, l = '-' :: t := by
  cases l with
  | nil => cases h
  | cons x t =>
    rw [minusCond, startsWithB, Bool.and_eq_true, decide_eq_true_eq] at h
    exact ⟨t, by rw [h.1]⟩

theorem checkFIRST_of_minus {l : Line} (h : minusCond l = true) :
    checkFIRST l = true := by
  obtain ⟨t, rfl⟩ := minusCond_head h
  rw [checkFIRST]
  simp

/-- Claim C4: inside a hunk body, when a deleted line is encountered
while the new-file cursor count equals c and is immediately followed by k
further deleted lines, the deleted-anchor list receives the sign-encoded
anchors at positions c, c + 1, ..., c + k (runAnchors of the run), these
increments do not feed the counting of later lines, and once the run ends
the loop resumes at the following line with the same count c it had at
the first deleted line of the run. -/
theorem claim_C4 (f : ℕ) (c : ℤ) (pre : List Line) (m : Line)
    (ms : List Line) (r : Line) (rest : List Line) (cs : List (Line → Bool))
    (a d : List ℤ) (res : List (String × FileEntry)) (fn : String)
    (hf : ms.length + 1 ≤ f)
    (hm : minusCond m = true) (hms : ∀ l ∈ ms, minusCond l = true)
    (hr : minusCond r = false) :
    hunkLoop (f + 1) c
      ⟨pre ++ m :: (ms ++ r :: rest), pre.length, Phase.b,
        checkFIRST :: cs, some a, some d, res, fn⟩ =
    hunkLoop f c
      ⟨pre ++ m :: (ms ++ r :: rest), pre.length + ms.length + 1, Phase.b,
        checkFIRST :: cs, some a, some (d ++ runAnchors c (m :: ms)),
        res, fn⟩ := by
  obtain ⟨mt, rfl⟩ := minusCond_head hm
  have hlen : pre.length < (pre ++ ('-' :: mt) :: (ms ++ r :: rest)).length := by
    simp
  have hget : (pre ++ ('-' :: mt) :: (ms ++ r :: rest)).get
      ⟨pre.length, hlen⟩ = '-' :: mt := by
    rw [List.get_eq_getElem, List.getElem_eq_iff]
    show (pre ++ ('-' :: mt) :: (ms ++ r :: rest))[pre.length]? = some ('-' :: mt)
    rw [List.getElem?_append_right (le_refl pre.length)]
    simp
  have hstep : nextL ⟨pre ++ ('-' :: mt) :: (ms ++ r :: rest), pre.length,
      Phase.b, checkFIRST :: cs, some a, some d, res, fn⟩ =
      (Step.got ('-' :: mt), ⟨pre ++ ('-' :: mt) :: (ms ++ r :: rest),
        pre.length, Phase.a, checkFIRST :: cs, some a, some d, res, fn⟩) := by
    rw [nextL, genResume]
    rw [resumeLoop_cond_got hlen (by rw [hget]; exact checkFIRST_of_minus hm),
      hget]
  rw [hunkLoop, hstep]
  dsimp only
  rw [if_neg (by decide), if_neg (by decide), if_pos (by decide)]
  rw [count_minus, pushCond]
  dsimp only
  have hrun := count_minus_run ms f (pre ++ ['-' :: mt]) r rest pre.length
    (c + 1) (checkFIRST :: cs) (some a) (d ++ [get_signed_count ('-' :: mt) c])
    res fn hf (by simp) hms hr
  rw [show pre ++ ('-' :: mt) :: (ms ++ r :: rest) =
      (pre ++ ['-' :: mt]) ++ ms ++ r :: rest by simp]
  rw [hrun]
  show hunkLoop f c _ = hunkLoop f c _
  congr 1
  rw [show runAnchors c (('-' :: mt) :: ms) =
      get_signed_count ('-' :: mt) c :: runAnchors (c + 1) ms from rfl]
  simp

/-- Witness for claim C4: a run of two deleted lines followed by a
context line, entered at count three, records anchors three and four and
resumes at count three. -/
theorem claim_C4_witness :
    hunkLoop 6 3
      ⟨["-x".toList, "-y".toList, " z".toList], 0, Phase.b, [checkFIRST],
        some [], some [], [], "f.cpp"⟩ =
    hunkLoop 5 3
      ⟨["-x".toList, "-y".toList, " z".toList], 2, Phase.b, [checkFIRST],
        some [], some (runAnchors 3 ["-x".toList, "-y".toList]), [],
        "f.cpp"⟩ :=
  claim_C4 5 3 [] ("-x".toList) ["-y".toList] (" z".toList) [] [] [] [] []
    "f.cpp" (by decide) (by decide) (by decide) (by decide)

theorem get_touched_all_neg {a d : List ℤ} (ha : ∀ x ∈ a, x < 0)
    (hd : ∀ x ∈ d, x < 0) : get_touched a d = ([], [], []) := by
  have ht : touchedList a.dedup d.dedup = [] := by
    rw [List.eq_nil_iff_forall_not_mem]
    intro x hx
    rcases mem_touchedList.1 hx with ⟨hm, hp, -⟩ | ⟨hm, hp, -⟩
    · have := ha x (List.mem_dedup.1 hm)
      omega
    · have := hd x (List.mem_dedup.1 hm)
      omega
  have hka : keptList a.dedup (touchedList a.dedup d.dedup) = [] := by
    rw [List.eq_nil_iff_forall_not_mem]
    intro x hx
    obtain ⟨hm, hp, -⟩ := mem_keptList.1 hx
    have := ha x (List.mem_dedup.1 hm)
    omega
  have hkd : keptList d.dedup (touchedList a.dedup d.dedup) = [] := by
    rw [List.eq_nil_iff_forall_not_mem]
    intro x hx
    obtain ⟨hm, hp, -⟩ := mem_keptList.1 hx
    have := hd x (List.mem_dedup.1 hm)
    omega
  simp only [get_touched]
  rw [hka, hkd, ht]
  rfl

/-- Claim C6, amended: for an interesting modified file whose hunks
produced only non-substantive (negative) anchors, at least one of them,
the recording step of get_changes does store an entry for the path: the
reconciliation empties all three lists, but the truthiness test on the
raw anchors passes, so the path maps to a modified entry whose added,
deleted and touched lists are all empty (with new set to false).  The
claim as stated says no entry at all appears; the counterexample run
shows the entry. -/
theorem claim_C6 (s : PState) (a d : List ℤ) (ha : s.added = some a)
    (hd : s.deleted = some d) (hne : a ≠ [] ∨ d ≠ [])
    (hnega : ∀ x ∈ a, x < 0) (hnegd : ∀ x ∈ d, x < 0) :
    finalize s = Except.ok
      ({s with results :=
          insertRes s.filename (FileEntry.modified [] [] []) s.results}) := by
  have hcond : (truthy s.added || truthy s.deleted) = true := by
    rcases hne with h | h
    · rw [ha]
      simp [truthy, h]
    · rw [hd]
      simp [truthy, h]
  rw [finalize, if_pos hcond, ha, hd]
  dsimp only
  rw [get_touched_all_neg hnega hnegd]

/-- Witness for the amended claim C6 at a state holding one negative
added anchor and no deleted anchors. -/
theorem claim_C6_witness :
    finalize ⟨[], 0, Phase.done, [], some [-1], some [], [], "a.cpp"⟩ =
      Except.ok ⟨[], 0, Phase.done, [], some [-1], some [],
        [("a.cpp", FileEntry.modified [] [] [])], "a.cpp"⟩ :=
  claim_C6 _ [-1] [] rfl rfl (Or.inl (by decide)) (by decide) (by decide)

/-- Counterexample to claim C6 as stated: a full parse of a patch whose
only change line is a blank addition (a negative anchor with no matching
deletion) produces a result map that does contain an entry for the path,
namely the all-empty modified entry, not no entry at all. -/
theorem claim_C6_cex :
    parse (fun p => p = "a.cpp") 50
      (["diff --git a/a.cpp b/a.cpp", "index 1", "@@ -1,1 +1,1 @@",
        "+ "].map String.toList) =
      Outcome.okR [("a.cpp", FileEntry.modified [] [] [])] 0 := by
  decide

/-- Claim C1 evaluation at failing inputs.  First conjunct: on a patch
whose interesting file has an unparsable hunk header, parse does not
return an empty result map with one fault report; the catch-all handler
itself raises AttributeError reading the absent attribute chgset, so the
exception escapes with zero reports delivered.  Second conjunct: that
outcome differs from the claimed one.  Third conjunct: premature
end-of-input in the middle of a hunk is not detected at all; parse
returns a non-empty partial result map holding the truncated file, again
with zero fault reports. -/
theorem claim_C1 :
    parse (fun p => p = "a.cpp") 50
      (["diff --git a/a.cpp b/a.cpp", "index 1", "@@ bad @@",
        "+x"].map String.toList) = Outcome.raised 0 ∧
    Outcome.raised 0 ≠ Outcome.okR [] 1 ∧
    parse (fun p => p = "a.cpp") 50
      (["diff --git a/a.cpp b/a.cpp", "index 1", "@@ -1,2 +1,2 @@",
        "+int x;"].map String.toList) =
      Outcome.okR [("a.cpp", FileEntry.modified [1] [] [])] 0 := by
  exact ⟨by decide, by decide, by decide⟩

/-- Claim C8 evaluation: parse_patch raises AttributeError before any
parsing because six.strings does not exist (and the isinstance arguments
are reversed), even on a well-formed patch string whose text, parsed as
one fragment, yields a normal result map. -/
theorem claim_C8 :
    parse_patch (fun p => p = "a.cpp") 50
      "diff --git a/a.cpp b/a.cpp\nindex 1\n@@ -1,1 +1,1 @@\n+int x;\n-int y;" =
      Outcome.raised 0 ∧
    parse (fun p => p = "a.cpp") 50
      (splitNl ("diff --git a/a.cpp b/a.cpp\nindex 1\n@@ -1,1 +1,1 @@\n+int x;\n-int y;".toList)) =
      Outcome.okR [("a.cpp", FileEntry.modified [1] [2] [])] 0 := by
  exact ⟨by decide, by decide⟩

/-- Data fields of the Patch object (everything except the cursor) that
the pure scanning loops leave untouched. -/
def sameData (s t : PState) : Prop :=
  t.added = s.added ∧ t.deleted = s.deleted ∧ t.results = s.results ∧
  t.filename = s.filename

theorem sameData_refl (s : PState) : sameData s s := ⟨rfl, rfl, rfl, rfl⟩

theorem sameData_trans {s t u : PState} (h1 : sameData s t)
    (h2 : sameData t u) : sameData s u :=
  ⟨h2.1.trans h1.1, h2.2.1.trans h1.2.1, h2.2.2.1.trans h1.2.2.1,
   h2.2.2.2.trans h1.2.2.2⟩

theorem resumeLoop_sameData (s : PState) : sameData s (resumeLoop s).2 := by
  rw [resumeLoop]
  split
  · dsimp only
    split
    · exact ⟨rfl, rfl, rfl, rfl⟩
    · split
      · exact ⟨rfl, rfl, rfl, rfl⟩
      · exact ⟨rfl, rfl, rfl, rfl⟩
  · exact ⟨rfl, rfl, rfl, rfl⟩

theorem genResume_sameData (s : PState) (n : ℕ) :
    sameData s (genResume s n).2 := by
  rw [genResume]
  split
  · exact sameData_refl s
  · exact resumeLoop_sameData s
  · exact resumeLoop_sameData s
  · dsimp only
    split
    · exact sameData_trans (sameData_refl _) (resumeLoop_sameData _)
    · exact ⟨rfl, rfl, rfl, rfl⟩

theorem nextL_sameData (s : PState) : sameData s (nextL s).2 :=
  genResume_sameData s 1

theorem pushCond_sameData (c : Line → Bool) (s : PState) :
    sameData s (pushCond c s) := ⟨rfl, rfl, rfl, rfl⟩

theorem scanLoop_sameData :
    ∀ (fuel : ℕ) (s : PState) (b : Bool) (s' : PState),
      scanLoop fuel s = Except.ok (b, s') → sameData s s'
  | 0, _, _, _, h => by cases h
  | fuel + 1, s, b, s', h => by
    rw [scanLoop] at h
    rcases hn : nextL s with ⟨step, s1⟩
    rw [hn] at h
    have hd : sameData s s1 := by
      have := nextL_sameData s
      rwa [hn] at this
    cases step with
    | got l => exact sameData_trans hd (scanLoop_sameData fuel s1 b s' h)
    | none_ =>
      injection h with h'
      injection h' with h1 h2
      exact h2 ▸ hd
    | end_ =>
      injection h with h'
      injection h' with h1 h2
      exact h2 ▸ hd

theorem skip_useless_sameData {fuel : ℕ} {s s' : PState}
    (h : skip_useless fuel s = Except.ok s') : sameData s s' := by
  rw [skip_useless] at h
  rcases hs : scanLoop fuel (pushCond uselessCond s) with e | ⟨b, s1⟩ <;>
    rw [hs] at h
  · cases h
  · injection h with h1
    exact h1 ▸ sameData_trans (pushCond_sameData _ s)
      (scanLoop_sameData fuel _ b s1 hs)

theorem skip_binary_sameData {fuel : ℕ} {s s' : PState}
    (h : skip_binary fuel s = Except.ok s') : sameData s s' := by
  rw [skip_binary] at h
  rcases hs : scanLoop fuel (pushCond nonBlankCond s) with e | ⟨b, s1⟩ <;>
    rw [hs] at h
  · cases h
  · injection h with h1
    exact h1 ▸ sameData_trans (pushCond_sameData _ s)
      (scanLoop_sameData fuel _ b s1 hs)

theorem moveC_sameData {n : ℕ} {s s' : PState}
    (h : moveC n s = Except.ok s') : sameData s s' := by
  rw [moveC] at h
  split at h
  · cases h
  · injection h with h1
    exact h1 ▸ genResume_sameData s n

theorem skip_deleted_file_sameData {fuel : ℕ} {s s' : PState}
    (h : skip_deleted_file fuel s = Except.ok s') : sameData s s' := by
  rw [skip_deleted_file] at h
  rcases hu : skip_useless fuel s with e | s1 <;> rw [hu] at h <;>
    dsimp only [bind, Except.bind] at h
  · cases h
  · have hd1 := skip_useless_sameData hu
    rcases hl : lineAt s1 with e | l <;> rw [hl] at h <;>
      dsimp only [bind, Except.bind] at h
    · cases h
    · split at h
      · exact sameData_trans hd1 (skip_binary_sameData h)
      · split at h
        · rcases hp : parse_numbers l with e | v <;> rw [hp] at h <;>
            dsimp only [bind, Except.bind] at h
          · cases h
          · exact sameData_trans hd1 (moveC_sameData h)
        · injection h with h1
          exact h1 ▸ hd1

theorem skip_new_file_spec {fuel : ℕ} {s s' : PState}
    (hfn : s.filename ≠ "") (h : skip_new_file fuel s = Except.ok s') :
    s'.added = s.added ∧ s'.deleted = s.deleted ∧
    s'.filename = s.filename ∧
    s'.results = insertRes s.filename FileEntry.isNew s.results := by
  rw [skip_new_file] at h
  rcases hu : skip_useless fuel s with e | s1 <;> rw [hu] at h <;>
    dsimp only [bind, Except.bind] at h
  · cases h
  · have hd1 := skip_useless_sameData hu
    rcases hl : lineAt s1 with e | l <;> rw [hl] at h <;>
      dsimp only [bind, Except.bind] at h
    · cases h
    · have hmid : ∀ s2 : PState,
          sameData s s2 →
          ((if s2.filename ≠ "" then
              Except.ok
                ({s2 with results :=
                    insertRes s2.filename FileEntry.isNew s2.results})
            else Except.ok s2) : M PState) = Except.ok s' →
          s'.added = s.added ∧ s'.deleted = s.deleted ∧
          s'.filename = s.filename ∧
          s'.results = insertRes s.filename FileEntry.isNew s.results := by
        intro s2 hd2 h2
        rw [if_pos (by rw [hd2.2.2.2]; exact hfn)] at h2
        injection h2 with h3
        subst h3
        exact ⟨hd2.1, hd2.2.1, hd2.2.2.2,
          by rw [hd2.2.2.2, hd2.2.2.1]⟩
      split at h
      · rcases hb : skip_binary fuel s1 with e | s2 <;> rw [hb] at h <;>
          dsimp only [bind, Except.bind] at h
        · cases h
        · exact hmid s2 (sameData_trans hd1 (skip_binary_sameData hb)) h
      · split at h
        · rcases hp : parse_numbers l with e | v <;> rw [hp] at h <;>
            dsimp only [bind, Except.bind] at h
          · cases h
          · rcases hm : moveC v.2.2 s1 with e | s2 <;> rw [hm] at h <;>
              dsimp only [bind, Except.bind] at h
            · cases h
            · exact hmid s2 (sameData_trans hd1 (moveC_sameData hm)) h
        · exact hmid s1 hd1 h

theorem resumeLoop_nil_got {L : List Line} {p : ℕ} {φ : Phase}
    {ad dl : Option (List ℤ)} {res : List (String × FileEntry)}
    {fn : String} (h : p < L.length) :
    resumeLoop ⟨L, p, φ, [], ad, dl, res, fn⟩ =
      (Step.got (L.get ⟨p, h⟩), ⟨L, p, Phase.a, [], ad, dl, res, fn⟩) := by
  rw [resumeLoop, dif_pos h]

theorem startsWithB_cons {p : Char} {ps l : Line}
    (h : startsWithB (p :: ps) l = true) :
    ∃ t, l = p :: t ∧ startsWithB ps t = true := by
  cases l with
  | nil => cases h
  | cons c t =>
    rw [startsWithB, Bool.and_eq_true, decide_eq_true_eq] at h
    exact ⟨t, by rw [h.1], h.2⟩

theorem startsWithB_cons_ne {p q : Char} {ps : Line} {t : Line}
    (hpq : ¬p = q) : startsWithB (p :: ps) (q :: t) = false := by
  rw [startsWithB]
  simp [hpq]

theorem del_not_new {l : Line}
    (h : startsWithB delFileTok l = true) :
    startsWithB newFileTok l = false := by
  rw [show delFileTok = 'd' :: "eleted file".toList from rfl] at h
  obtain ⟨t, rfl, -⟩ := startsWithB_cons h
  rw [show newFileTok = 'n' :: "ew file".toList from rfl]
  exact startsWithB_cons_ne (by decide)

theorem get_changes_deleted_case (fuel : ℕ) (s s'' : PState)
    (h : s.index + 1 < s.lines.length) (hph : s.phase = Phase.a)
    (hcds : s.conds = []) (had : s.added = some [])
    (hdl : s.deleted = some [])
    (hstart : startsWithB delFileTok (s.lines.get ⟨s.index + 1, h⟩) = true)
    (hgc : get_changes fuel s = Except.ok s'') :
    s''.results = s.results := by
  obtain ⟨L, i, ph, cds, ad, dl, res, fn⟩ := s
  dsimp only at h hph hcds had hdl hstart hgc ⊢
  subst hph
  subst hcds
  subst had
  subst hdl
  have hstep : nextL ⟨L, i, Phase.a, [], some [], some [], res, fn⟩ =
      (Step.got (L.get ⟨i + 1, h⟩),
        ⟨L, i + 1, Phase.a, [], some [], some [], res, fn⟩) := by
    rw [nextL, genResume_a 1, if_pos h, resumeLoop_nil_got h]
  rw [get_changes, hstep] at hgc
  dsimp only at hgc
  rw [if_neg (by rw [del_not_new hstart]; exact Bool.false_ne_true),
    if_pos hstart] at hgc
  rcases hsd : skip_deleted_file fuel
      ⟨L, i + 1, Phase.a, [], some [], some [], res, fn⟩ with e | s2 <;>
    rw [hsd] at hgc <;> dsimp only [bind, Except.bind] at hgc
  · cases hgc
  · have hd2 := skip_deleted_file_sameData hsd
    have hcond : ¬((truthy s2.added || truthy s2.deleted) = true) := by
      rw [hd2.1, hd2.2.1]
      dsimp only
      decide
    rw [finalize, if_neg hcond] at hgc
    injection hgc with h1
    subst h1
    exact hd2.2.2.1

theorem get_changes_new_case (fuel : ℕ) (s s'' : PState)
    (h : s.index + 1 < s.lines.length) (hph : s.phase = Phase.a)
    (hcds : s.conds = []) (had : s.added = some [])
    (hdl : s.deleted = some []) (hfn : s.filename ≠ "")
    (hstart : startsWithB newFileTok (s.lines.get ⟨s.index + 1, h⟩) = true)
    (hgc : get_changes fuel s = Except.ok s'') :
    s''.results = insertRes s.filename FileEntry.isNew s.results := by
  obtain ⟨L, i, ph, cds, ad, dl, res, fn⟩ := s
  dsimp only at h hph hcds had hdl hfn hstart hgc ⊢
  subst hph
  subst hcds
  subst had
  subst hdl
  have hstep : nextL ⟨L, i, Phase.a, [], some [], some [], res, fn⟩ =
      (Step.got (L.get ⟨i + 1, h⟩),
        ⟨L, i + 1, Phase.a, [], some [], some [], res, fn⟩) := by
    rw [nextL, genResume_a 1, if_pos h, resumeLoop_nil_got h]
  rw [get_changes, hstep] at hgc
  dsimp only at hgc
  rw [if_pos hstart] at hgc
  rcases hsn : skip_new_file fuel
      ⟨L, i + 1, Phase.a, [], some [], some [], res, fn⟩ with e | s2 <;>
    rw [hsn] at hgc <;> dsimp only [bind, Except.bind] at hgc
  · cases hgc
  · have hd2 := skip_new_file_spec hfn hsn
    have hcond : ¬((truthy s2.added || truthy s2.deleted) = true) := by
      rw [hd2.1, hd2.2.1]
      dsimp only
      decide
    rw [finalize, if_neg hcond] at hgc
    injection hgc with h1
    subst h1
    exact hd2.2.2.2

/-- Claim C7: a deleted-file diff section for an interesting path records
no entry in the result map (the first conjunct: whatever the skipping
does, a successful get_changes leaves the results unchanged), in contrast
with the new-file case, which records exactly the new-file entry for the
active path (the second conjunct).  Both statements take the state as
get_changes receives it in Patch.parse: cursor suspended on the header
line, empty condition stack, raw anchor lists freshly reset. -/
theorem claim_C7 :
    (∀ (fuel : ℕ) (s s'' : PState) (h : s.index + 1 < s.lines.length),
      s.phase = Phase.a → s.conds = [] → s.added = some [] →
      s.deleted = some [] →
      startsWithB delFileTok (s.lines.get ⟨s.index + 1, h⟩) = true →
      get_changes fuel s = Except.ok s'' → s''.results = s.results) ∧
    (∀ (fuel : ℕ) (s s'' : PState) (h : s.index + 1 < s.lines.length),
      s.phase = Phase.a → s.conds = [] → s.added = some [] →
      s.deleted = some [] → s.filename ≠ "" →
      startsWithB newFileTok (s.lines.get ⟨s.index + 1, h⟩) = true →
      get_changes fuel s = Except.ok s'' →
      s''.results = insertRes s.filename FileEntry.isNew s.results) :=
  ⟨fun fuel s s'' h h1 h2 h3 h4 h5 h6 =>
    get_changes_deleted_case fuel s s'' h h1 h2 h3 h4 h5 h6,
   fun fuel s s'' h h1 h2 h3 h4 h5 h6 h7 =>
    get_changes_new_case fuel s s'' h h1 h2 h3 h4 h5 h6 h7⟩

/-- Witness for claim C7: concrete three-line deleted-file and new-file
sections, run through get_changes from the state Patch.parse hands over;
the deleted-file run keeps the result map unchanged, the new-file run
inserts the new-file entry. -/
theorem claim_C7_witness :
    ((get_changes 20
        ⟨["diff --git a/d.cpp b/d.cpp", "deleted file mode",
          "index 1"].map String.toList, 0, Phase.a, [], some [], some [],
          [("x.cpp", FileEntry.isNew)], "d.cpp"⟩ =
      Except.ok
        ⟨["diff --git a/d.cpp b/d.cpp", "deleted file mode",
          "index 1"].map String.toList, 0, Phase.done, [uselessCond],
          some [], some [], [("x.cpp", FileEntry.isNew)], "d.cpp"⟩) ∧
      (⟨["diff --git a/d.cpp b/d.cpp", "deleted file mode",
          "index 1"].map String.toList, 0, Phase.done, [uselessCond],
          some [], some [], [("x.cpp", FileEntry.isNew)],
          "d.cpp"⟩ : PState).results =
        (⟨["diff --git a/d.cpp b/d.cpp", "deleted file mode",
          "index 1"].map String.toList, 0, Phase.a, [], some [], some [],
          [("x.cpp", FileEntry.isNew)], "d.cpp"⟩ : PState).results) ∧
    ((get_changes 20
        ⟨["diff --git a/n.cpp b/n.cpp", "new file mode",
          "index 1"].map String.toList, 0, Phase.a, [], some [], some [],
          [], "n.cpp"⟩ =
      Except.ok
        ⟨["diff --git a/n.cpp b/n.cpp", "new file mode",
          "index 1"].map String.toList, 0, Phase.done, [uselessCond],
          some [], some [], [("n.cpp", FileEntry.isNew)], "n.cpp"⟩) ∧
      (⟨["diff --git a/n.cpp b/n.cpp", "new file mode",
          "index 1"].map String.toList, 0, Phase.done, [uselessCond],
          some [], some [], [("n.cpp", FileEntry.isNew)],
          "n.cpp"⟩ : PState).results =
        insertRes "n.cpp" FileEntry.isNew []) := by
  have hD : get_changes 20
      ⟨["diff --git a/d.cpp b/d.cpp", "deleted file mode",
        "index 1"].map String.toList, 0, Phase.a, [], some [], some [],
        [("x.cpp", FileEntry.isNew)], "d.cpp"⟩ =
      Except.ok
        ⟨["diff --git a/d.cpp b/d.cpp", "deleted file mode",
          "index 1"].map String.toList, 0, Phase.done, [uselessCond],
          some [], some [], [("x.cpp", FileEntry.isNew)], "d.cpp"⟩ := by
    rfl
  have hN : get_changes 20
      ⟨["diff --git a/n.cpp b/n.cpp", "new file mode",
        "index 1"].map String.toList, 0, Phase.a, [], some [], some [],
        [], "n.cpp"⟩ =
      Except.ok
        ⟨["diff --git a/n.cpp b/n.cpp", "new file mode",
          "index 1"].map String.toList, 0, Phase.done, [uselessCond],
          some [], some [], [("n.cpp", FileEntry.isNew)], "n.cpp"⟩ := by
    rfl
  refine ⟨⟨hD, ?_⟩, ⟨hN, ?_⟩⟩
  · exact claim_C7.1 20 _ _ (by decide) rfl rfl rfl rfl (by decide) hD
  · exact claim_C7.2 20 _ _ (by decide) rfl rfl rfl rfl (by decide)
      (by decide) hN
